import Mathlib

/-!
Verification of the `inlinable_string` crate (src/inline_string.rs, src/lib.rs,
src/serde_impl.rs) against its natural-language specification.

The embedding is byte-level: a Rust `u8` is a `Nat` (values kept below 256 by
construction), a Rust `char` is a `Nat` Unicode scalar value, a `&str` / heap
`String` is its list of UTF-8 bytes, and `InlineString` is a record of a
`length` and a 32-entry byte list.  Rust panics are modelled by `Option`
(`none` = panic); `debug_assert!` checks (`assert_sanity`) are modelled as
no-ops, matching release-build semantics, and appear instead as the `Sane`
predicate in theorem hypotheses.
-/

namespace Inlinable

/-- A Unicode scalar value, as guaranteed by Rust `char`. -/
def IsUSV (c : Nat) : Prop := c < 0xD800 ∨ (0xE000 ≤ c ∧ c < 0x110000)

instance (c : Nat) : Decidable (IsUSV c) := by unfold IsUSV; infer_instance

/-- Models Rust `char::len_utf8`. -/
def lenUtf8 (c : Nat) : Nat :=
  if c < 0x80 then 1
  else if c < 0x800 then 2
  else if c < 0x10000 then 3
  else 4

/-- The UTF-8 encoding of a scalar value, as produced by Rust `char::encode_utf8`
(used via `write!` in `InlineString::push` / `insert` and by `String::push`). -/
def utf8Encode (c : Nat) : List Nat :=
  if c < 0x80 then [c]
  else if c < 0x800 then [0xC0 + c / 64, 0x80 + c % 64]
  else if c < 0x10000 then [0xE0 + c / 4096, 0x80 + c / 64 % 64, 0x80 + c % 64]
  else [0xF0 + c / 262144, 0x80 + c / 4096 % 64, 0x80 + c / 64 % 64, 0x80 + c % 64]

/-- Helper of `decodeChar`: 2-byte sequences. -/
def decode2 (b0 : Nat) : List Nat → Option (Nat × Nat)
  | b1 :: _ =>
    if 0x80 ≤ b1 ∧ b1 < 0xC0 then some ((b0 - 0xC0) * 64 + (b1 - 0x80), 2) else none
  | _ => none

/-- Helper of `decodeChar`: 3-byte sequences (with overlong and surrogate checks). -/
def decode3 (b0 : Nat) : List Nat → Option (Nat × Nat)
  | b1 :: b2 :: _ =>
    if (0x80 ≤ b1 ∧ b1 < 0xC0) ∧ (0x80 ≤ b2 ∧ b2 < 0xC0) then
      let v := (b0 - 0xE0) * 4096 + (b1 - 0x80) * 64 + (b2 - 0x80)
      if 0x800 ≤ v ∧ (v < 0xD800 ∨ 0xE000 ≤ v) then some (v, 3) else none
    else none
  | _ => none

/-- Helper of `decodeChar`: 4-byte sequences (with overlong and range checks). -/
def decode4 (b0 : Nat) : List Nat → Option (Nat × Nat)
  | b1 :: b2 :: b3 :: _ =>
    if (0x80 ≤ b1 ∧ b1 < 0xC0) ∧ (0x80 ≤ b2 ∧ b2 < 0xC0) ∧ (0x80 ≤ b3 ∧ b3 < 0xC0) then
      let v := (b0 - 0xF0) * 262144 + (b1 - 0x80) * 4096 + (b2 - 0x80) * 64 + (b3 - 0x80)
      if 0x10000 ≤ v ∧ v < 0x110000 then some (v, 4) else none
    else none
  | _ => none

/-- Decode the first UTF-8 character of a byte list, returning its scalar value
and encoded width.  Models the first step of Rust `str` UTF-8 validation /
`str::chars`: strict UTF-8 (shortest form, no surrogates, max U+10FFFF). -/
def decodeChar : List Nat → Option (Nat × Nat)
  | [] => none
  | b0 :: rest =>
    if b0 < 0x80 then some (b0, 1)
    else if b0 < 0xC2 then none
    else if b0 < 0xE0 then decode2 b0 rest
    else if b0 < 0xF0 then decode3 b0 rest
    else if b0 < 0xF5 then decode4 b0 rest
    else none

/-- Fuel-indexed full UTF-8 decode of a byte list into scalar values. -/
def utf8DecodeAux : Nat → List Nat → Option (List Nat)
  | _, [] => some []
  | 0, _ :: _ => none
  | fuel + 1, b :: t =>
    match decodeChar (b :: t) with
    | none => none
    | some (c, n) => (utf8DecodeAux fuel (List.drop n (b :: t))).map (fun cs => c :: cs)

/-- Full UTF-8 decode of a byte list into scalar values. -/
def utf8Decode (l : List Nat) : Option (List Nat) :=
  utf8DecodeAux l.length l

/-- Models Rust `str::from_utf8(..).is_ok()` (the condition checked by
`InlineString::assert_sanity`). -/
def validUtf8 (l : List Nat) : Bool :=
  (utf8Decode l).isSome

/-- Fuel-indexed version of `charIndices`. -/
def charIndicesAux : Nat → Nat → List Nat → List (Nat × Nat)
  | _, _, [] => []
  | 0, _, _ :: _ => []
  | fuel + 1, pos, b :: t =>
    match decodeChar (b :: t) with
    | none => []
    | some (c, n) => (pos, c) :: charIndicesAux fuel (pos + n) (List.drop n (b :: t))

/-- Models Rust `str::char_indices` on the byte content: the list of
(byte offset, scalar value) pairs of the characters, in order. -/
def charIndices (l : List Nat) : List (Nat × Nat) :=
  charIndicesAux l.length 0 l

/-- Models Rust `str::is_char_boundary` on the byte content: true at 0, at the
end, and at any byte that is not a UTF-8 continuation byte. -/
def isCharBoundary (l : List Nat) (idx : Nat) : Bool :=
  if idx = 0 then true
  else
    match l.get? idx with
    | none => idx = l.length
    | some b => b < 0x80 ∨ 0xC0 ≤ b

theorem lenUtf8_pos (c : Nat) : 1 ≤ lenUtf8 c := by
  unfold lenUtf8; split_ifs <;> omega

theorem utf8Encode_length (c : Nat) : (utf8Encode c).length = lenUtf8 c := by
  unfold utf8Encode lenUtf8; split_ifs <;> rfl

theorem utf8Encode_ne_nil (c : Nat) : utf8Encode c ≠ [] := by
  unfold utf8Encode; split_ifs <;> simp

theorem decodeChar_le {l : List Nat} {c n : Nat} (h : decodeChar l = some (c, n)) :
    1 ≤ n ∧ n ≤ l.length := by
  match l with
  | [] => simp [decodeChar] at h
  | b0 :: rest =>
    simp only [decodeChar] at h
    split_ifs at h with h1 h2 h3 h4 h5
    · simp at h ⊢; omega
    · match rest with
      | [] => simp [decode2] at h
      | b1 :: t =>
        simp only [decode2] at h
        split_ifs at h
        simp at h ⊢; omega
    · match rest with
      | [] => simp [decode3] at h
      | [b1] => simp [decode3] at h
      | b1 :: b2 :: t =>
        simp only [decode3] at h
        split_ifs at h
        simp at h ⊢; omega
    · match rest with
      | [] => simp [decode4] at h
      | [b1] => simp [decode4] at h
      | [b1, b2] => simp [decode4] at h
      | b1 :: b2 :: b3 :: t =>
        simp only [decode4] at h
        split_ifs at h
        simp at h ⊢; omega

theorem decodeChar_append {l : List Nat} {c n : Nat} (q : List Nat)
    (h : decodeChar l = some (c, n)) : decodeChar (l ++ q) = some (c, n) := by
  match l with
  | [] => simp [decodeChar] at h
  | b0 :: rest =>
    simp only [List.cons_append]
    simp only [decodeChar] at h ⊢
    split_ifs at h ⊢ <;> try exact h
    · match rest with
      | [] => simp [decode2] at h
      | b1 :: t => simpa [decode2] using h
    · match rest with
      | [] => simp [decode3] at h
      | [b1] => simp [decode3] at h
      | b1 :: b2 :: t => simpa [decode3] using h
    · match rest with
      | [] => simp [decode4] at h
      | [b1] => simp [decode4] at h
      | [b1, b2] => simp [decode4] at h
      | b1 :: b2 :: b3 :: t => simpa [decode4] using h

theorem decodeChar_utf8Encode {c : Nat} (hc : IsUSV c) (rest : List Nat) :
    decodeChar (utf8Encode c ++ rest) = some (c, lenUtf8 c) := by
  by_cases h1 : c < 0x80
  · simp [utf8Encode, lenUtf8, decodeChar, h1]
  · by_cases h2 : c < 0x800
    · have e1 : ¬ (0xC0 + c / 64 < 0x80) := by omega
      have e2 : ¬ (0xC0 + c / 64 < 0xC2) := by omega
      have e3 : 0xC0 + c / 64 < 0xE0 := by omega
      simp only [utf8Encode, lenUtf8, if_neg h1, if_pos h2, List.cons_append,
        decodeChar, if_neg e1, if_neg e2, if_pos e3, decode2]
      rw [if_pos (by constructor <;> omega)]
      have : (0xC0 + c / 64 - 0xC0) * 64 + (0x80 + c % 64 - 0x80) = c := by omega
      rw [this]
    · by_cases h3 : c < 0x10000
      · have e1 : ¬ (0xE0 + c / 4096 < 0x80) := by omega
        have e2 : ¬ (0xE0 + c / 4096 < 0xC2) := by omega
        have e3 : ¬ (0xE0 + c / 4096 < 0xE0) := by omega
        have e4 : 0xE0 + c / 4096 < 0xF0 := by omega
        simp only [utf8Encode, lenUtf8, if_neg h1, if_neg h2, if_pos h3, List.cons_append,
          decodeChar, if_neg e1, if_neg e2, if_neg e3, if_pos e4, decode3]
        rw [if_pos (by refine ⟨⟨by omega, by omega⟩, by omega, by omega⟩)]
        have hval : (0xE0 + c / 4096 - 0xE0) * 4096 + (0x80 + c / 64 % 64 - 0x80) * 64 +
            (0x80 + c % 64 - 0x80) = c := by omega
        simp only [hval]
        rw [if_pos (by rcases hc with h | h <;> omega)]
      · have h4 : c < 0x110000 := by rcases hc with h | h <;> omega
        have e1 : ¬ (0xF0 + c / 262144 < 0x80) := by omega
        have e2 : ¬ (0xF0 + c / 262144 < 0xC2) := by omega
        have e3 : ¬ (0xF0 + c / 262144 < 0xE0) := by omega
        have e4 : ¬ (0xF0 + c / 262144 < 0xF0) := by omega
        have e5 : 0xF0 + c / 262144 < 0xF5 := by omega
        simp only [utf8Encode, lenUtf8, if_neg h1, if_neg h2, if_neg h3, List.cons_append,
          decodeChar, if_neg e1, if_neg e2, if_neg e3, if_neg e4, if_pos e5, decode4]
        rw [if_pos (by refine ⟨⟨by omega, by omega⟩, ⟨by omega, by omega⟩, by omega, by omega⟩)]
        have hval : (0xF0 + c / 262144 - 0xF0) * 262144 + (0x80 + c / 4096 % 64 - 0x80) * 4096 +
            (0x80 + c / 64 % 64 - 0x80) * 64 + (0x80 + c % 64 - 0x80) = c := by omega
        simp only [hval]
        rw [if_pos (by omega)]

theorem utf8DecodeAux_congr : ∀ (f₁ f₂ : Nat) (l : List Nat), l.length ≤ f₁ → l.length ≤ f₂ →
    utf8DecodeAux f₁ l = utf8DecodeAux f₂ l := by
  intro f₁
  induction f₁ with
  | zero =>
    intro f₂ l h₁ h₂
    have : l = [] := by cases l <;> simp_all
    subst this
    cases f₂ <;> rfl
  | succ f ih =>
    intro f₂ l h₁ h₂
    match l with
    | [] => cases f₂ <;> rfl
    | b :: t =>
      match f₂ with
      | 0 => simp at h₂
      | g + 1 =>
        cases hd : decodeChar (b :: t) with
        | none => simp only [utf8DecodeAux, hd]
        | some r =>
          obtain ⟨c, n⟩ := r
          have hle := decodeChar_le hd
          simp only [List.length_cons] at hle h₁ h₂
          have hlen : (List.drop n (b :: t)).length ≤ f := by
            simp only [List.length_drop, List.length_cons]
            omega
          have hlen' : (List.drop n (b :: t)).length ≤ g := by
            simp only [List.length_drop, List.length_cons]
            omega
          simp only [utf8DecodeAux, hd]
          rw [ih g _ hlen hlen']

theorem utf8Decode_cons {l : List Nat} {c n : Nat} (h : decodeChar l = some (c, n)) :
    utf8Decode l = (utf8Decode (l.drop n)).map (fun cs => c :: cs) := by
  match l with
  | [] => simp [decodeChar] at h
  | b :: t =>
    have hle := decodeChar_le h
    simp only [utf8Decode, List.length_cons, utf8DecodeAux, h]
    have : utf8DecodeAux t.length (List.drop n (b :: t)) =
        utf8DecodeAux (List.drop n (b :: t)).length (List.drop n (b :: t)) := by
      apply utf8DecodeAux_congr
      · simp only [List.length_drop, List.length_cons]
        simp only [List.length_cons] at hle
        omega
      · exact Nat.le_refl _
    rw [this]

theorem validUtf8_cons_elim {l : List Nat} (hne : l ≠ []) (h : validUtf8 l = true) :
    ∃ c n, decodeChar l = some (c, n) ∧ validUtf8 (l.drop n) = true := by
  match l with
  | [] => exact absurd rfl hne
  | b :: t =>
    unfold validUtf8 at h
    cases hd : decodeChar (b :: t) with
    | none =>
      rw [utf8Decode, List.length_cons] at h
      simp only [utf8DecodeAux, hd] at h
      simp at h
    | some r =>
      obtain ⟨c, n⟩ := r
      refine ⟨c, n, rfl, ?_⟩
      rw [utf8Decode_cons hd] at h
      unfold validUtf8
      cases hrec : utf8Decode (List.drop n (b :: t)) with
      | none => rw [hrec] at h; simp at h
      | some cs => simp

theorem charIndicesAux_congr : ∀ (f₁ f₂ pos : Nat) (l : List Nat),
    l.length ≤ f₁ → l.length ≤ f₂ →
    charIndicesAux f₁ pos l = charIndicesAux f₂ pos l := by
  intro f₁
  induction f₁ with
  | zero =>
    intro f₂ pos l h₁ h₂
    have : l = [] := by cases l <;> simp_all
    subst this
    cases f₂ <;> rfl
  | succ f ih =>
    intro f₂ pos l h₁ h₂
    match l with
    | [] => cases f₂ <;> rfl
    | b :: t =>
      match f₂ with
      | 0 => simp at h₂
      | g + 1 =>
        cases hd : decodeChar (b :: t) with
        | none => simp only [charIndicesAux, hd]
        | some r =>
          obtain ⟨c, n⟩ := r
          have hle := decodeChar_le hd
          simp only [List.length_cons] at hle h₁ h₂
          have hlen : (List.drop n (b :: t)).length ≤ f := by
            simp only [List.length_drop, List.length_cons]; omega
          have hlen' : (List.drop n (b :: t)).length ≤ g := by
            simp only [List.length_drop, List.length_cons]; omega
          simp only [charIndicesAux, hd]
          rw [ih g _ _ hlen hlen']

theorem charIndicesAux_append : ∀ (f : Nat) (p q : List Nat) (pos : Nat),
    p.length + q.length ≤ f → validUtf8 p = true →
    charIndicesAux f pos (p ++ q) =
      charIndicesAux f pos p ++ charIndicesAux f (pos + p.length) q := by
  intro f
  induction f with
  | zero =>
    intro p q pos hf _
    have hp : p = [] := by cases p <;> simp_all
    have hq : q = [] := by cases q <;> simp_all
    subst hp; subst hq; rfl
  | succ f ih =>
    intro p q pos hf hp
    match p with
    | [] => simp [charIndicesAux]
    | b :: t =>
      obtain ⟨c, n, hd, hrest⟩ := validUtf8_cons_elim (by simp) hp
      have hle := decodeChar_le hd
      simp only [List.length_cons] at hle
      have hdq : decodeChar ((b :: t) ++ q) = some (c, n) := decodeChar_append q hd
      simp only [List.cons_append] at hdq ⊢
      simp only [charIndicesAux, hd, hdq]
      have hdrop : List.drop n (b :: (t ++ q)) = List.drop n (b :: t) ++ q := by
        rw [show (b :: (t ++ q)) = (b :: t) ++ q from rfl]
        rw [List.drop_append_of_le_length (by simpa using hle.2)]
      rw [hdrop]
      have hlen : (List.drop n (b :: t)).length + q.length ≤ f := by
        simp only [List.length_drop, List.length_cons]
        simp only [List.length_cons, List.length_append] at hf
        omega
      rw [ih _ _ _ hlen hrest]
      have hq : charIndicesAux f (pos + n + (List.drop n (b :: t)).length) q =
          charIndicesAux (f + 1) (pos + (b :: t).length) q := by
        have : pos + n + (List.drop n (b :: t)).length = pos + (b :: t).length := by
          simp only [List.length_drop, List.length_cons]
          omega
        rw [this]
        apply charIndicesAux_congr
        · simp only [List.length_cons, List.length_append] at hf; omega
        · simp only [List.length_cons, List.length_append] at hf; omega
      rw [hq]
      have hpart : charIndicesAux f (pos + n) (List.drop n (b :: t)) =
          charIndicesAux (f + 1) (pos + n) (List.drop n (b :: t)) := by
        apply charIndicesAux_congr
        · simp only [List.length_drop, List.length_cons]
          simp only [List.length_cons, List.length_append] at hf
          omega
        · simp only [List.length_drop, List.length_cons]
          simp only [List.length_cons, List.length_append] at hf
          omega
      rw [hpart]
      simp

theorem charIndicesAux_encode {c : Nat} (hc : IsUSV c) (f pos : Nat)
    (hf : lenUtf8 c ≤ f) : charIndicesAux f pos (utf8Encode c) = [(pos, c)] := by
  have hd : decodeChar (utf8Encode c) = some (c, lenUtf8 c) := by
    have := decodeChar_utf8Encode hc []
    simpa using this
  have hne := utf8Encode_ne_nil c
  match hE : utf8Encode c with
  | [] => exact absurd hE hne
  | b :: t =>
    rw [hE] at hd
    have hlen : (b :: t).length = lenUtf8 c := by rw [← hE, utf8Encode_length]
    match f with
    | 0 => rw [← hlen] at hf; simp at hf
    | g + 1 =>
      simp only [charIndicesAux, hd]
      have : List.drop (lenUtf8 c) (b :: t) = [] := by
        apply List.drop_eq_nil_of_le
        rw [hlen]
      rw [this]
      simp [charIndicesAux]

/-- The last entry of `charIndices` after appending one encoded character to a
valid UTF-8 byte string: the appended character, at offset `p.length`. -/
theorem charIndices_append_encode {p : List Nat} {c : Nat}
    (hp : validUtf8 p = true) (hc : IsUSV c) :
    (charIndices (p ++ utf8Encode c)).getLast? = some (p.length, c) := by
  unfold charIndices
  rw [charIndicesAux_append _ p (utf8Encode c) 0 (by simp) hp]
  rw [charIndicesAux_encode hc _ _ (by simp [List.length_append, utf8Encode_length])]
  simp

/-! ## InlineString (src/inline_string.rs) -/

/-- `INLINE_STRING_CAPACITY` from src/inline_string.rs line 51. -/
def INLINE_STRING_CAPACITY : Nat := 32

/-- `InlineString` from src/inline_string.rs: a used-byte count and a fixed
32-entry byte array, modelled as a list that the operations keep at length 32. -/
structure InlineString where
  length : Nat
  bytes : List Nat
  deriving DecidableEq, Repr

/-- `NotEnoughSpaceError` from src/inline_string.rs. -/
structure NotEnoughSpaceError where
  deriving DecidableEq, Repr

namespace InlineString

/-- The string content `bytes[0..length]`, as exposed by `as_ref` / `as_bytes` /
`Deref` on `InlineString`. -/
def content (s : InlineString) : List Nat :=
  s.bytes.take s.length

/-- The two conditions `assert_sanity` checks (`debug_assert!`, release no-op),
plus the fixed-array layout `bytes.length = 32` that the Rust type carries. -/
def Sane (s : InlineString) : Prop :=
  s.length ≤ INLINE_STRING_CAPACITY ∧ s.bytes.length = INLINE_STRING_CAPACITY ∧
    validUtf8 (content s) = true

instance (s : InlineString) : Decidable (Sane s) := by unfold Sane; infer_instance

/-- `InlineString::new`. -/
def new : InlineString :=
  { length := 0, bytes := List.replicate INLINE_STRING_CAPACITY 0 }

/-- `From<&str> for InlineString`, the copy part (after the capacity assert):
copy the string bytes into a fresh zeroed buffer. -/
def fromStrRaw (t : List Nat) : InlineString :=
  { length := t.length, bytes := t ++ List.replicate (INLINE_STRING_CAPACITY - t.length) 0 }

/-- `From<&str> for InlineString`: `assert!(string_len <= INLINE_STRING_CAPACITY)`
(`none` = panic), then copy. -/
def from_str (t : List Nat) : Option InlineString :=
  if t.length ≤ INLINE_STRING_CAPACITY then some (fromStrRaw t) else none

/-- `InlineString::push_str`: capacity check first (error, no change), else
`ptr::copy` of the string bytes at offset `length` and length update.  Returned
pair is (receiver after the call, the `Result` error value if any). -/
def push_str (s : InlineString) (t : List Nat) : InlineString × Option NotEnoughSpaceError :=
  if s.length + t.length > INLINE_STRING_CAPACITY then (s, some {})
  else ({ length := s.length + t.length,
          bytes := s.bytes.take s.length ++ t ++ s.bytes.drop (s.length + t.length) }, none)

/-- `InlineString::push`: capacity check with `ch.len_utf8()` (error, no
change), else the character is UTF-8 encoded into `bytes[length..]`. -/
def push (s : InlineString) (c : Nat) : InlineString × Option NotEnoughSpaceError :=
  if s.length + lenUtf8 c > INLINE_STRING_CAPACITY then (s, some {})
  else ({ length := s.length + lenUtf8 c,
          bytes := s.bytes.take s.length ++ utf8Encode c ++
            s.bytes.drop (s.length + lenUtf8 c) }, none)

/-- `InlineString::truncate`: asserts that some `char_indices` entry starts at
`new_len` (`none` = panic), then asserts `new_len <= length`, then sets the
length; bytes are untouched. -/
def truncate (s : InlineString) (new_len : Nat) : Option InlineString :=
  if (charIndices (content s)).any (fun p => p.1 == new_len) then
    if new_len ≤ s.length then some { s with length := new_len } else none
  else none

/-- `InlineString::pop`: the last `char_indices` entry, if any; sets length to
that entry byte offset and returns its character. -/
def pop (s : InlineString) : Option Nat × InlineString :=
  match (charIndices (content s)).getLast? with
  | none => (none, s)
  | some (i, c) => (some c, { s with length := i })

/-- `InlineString::remove`: asserts `idx <= length` (`none` = panic), finds the
`char_indices` entry at `idx` (`none` = panic if absent), then closes the gap
with an overlapping `ptr::copy` and shrinks the length. -/
def remove (s : InlineString) (idx : Nat) : Option (Nat × InlineString) :=
  if idx ≤ s.length then
    match (charIndices (content s)).find? (fun p => p.1 == idx) with
    | none => none
    | some (_, ch) =>
      let n := lenUtf8 ch
      let next := idx + n
      let newBytes := s.bytes.take idx ++ (s.bytes.drop next).take (s.length - next) ++
        s.bytes.drop (idx + (s.length - next))
      some (ch, { length := s.length - n, bytes := newBytes })
  else none

/-- `InlineString::insert`: asserts `idx <= length` (`none` = panic), then the
capacity check (error, no change), then shifts `bytes[idx..length]` right by
`ch.len_utf8()` and writes the encoded character at `idx`.  Note: the source
performs no character-boundary check here; on a non-boundary `idx` the mutation
happens anyway (the exit `assert_sanity` is a `debug_assert!`). -/
def insert (s : InlineString) (idx : Nat) (c : Nat) :
    Option (InlineString × Option NotEnoughSpaceError) :=
  if idx ≤ s.length then
    if s.length + lenUtf8 c > INLINE_STRING_CAPACITY then some (s, some {})
    else
      let newBytes := s.bytes.take idx ++ utf8Encode c ++
        (s.bytes.drop idx).take (s.length - idx) ++ s.bytes.drop (s.length + lenUtf8 c)
      some ({ length := s.length + lenUtf8 c, bytes := newBytes }, none)
  else none

/-- `InlineString::clear`: length becomes 0. -/
def clear (s : InlineString) : InlineString :=
  { s with length := 0 }

end InlineString

/-! ## The heap variant: std `String` semantics on UTF-8 byte content.
These model the Rust standard library string operations that
`InlinableString`'s `Heap` arm delegates to (external collaborators of this
crate); a `String` is represented by its UTF-8 byte list. -/

/-- std `String::push_str`. -/
def stdPushStr (h t : List Nat) : List Nat := h ++ t

/-- std `String::push`. -/
def stdPush (h : List Nat) (c : Nat) : List Nat := h ++ utf8Encode c

/-- std `String::insert`: asserts `idx` is a char boundary (`none` = panic),
then splices in the encoded character. -/
def stdInsert (h : List Nat) (idx c : Nat) : Option (List Nat) :=
  if isCharBoundary h idx then some (h.take idx ++ utf8Encode c ++ h.drop idx) else none

/-- std `String::remove`: panics unless `idx` starts a character; removes it. -/
def stdRemove (h : List Nat) (idx : Nat) : Option (Nat × List Nat) :=
  if isCharBoundary h idx then
    match decodeChar (h.drop idx) with
    | none => none
    | some (c, n) => some (c, h.take idx ++ h.drop (idx + n))
  else none

/-- std `String::pop`: remove and return the last character, if any. -/
def stdPop (h : List Nat) : Option Nat × List Nat :=
  match (charIndices h).getLast? with
  | none => (none, h)
  | some (i, c) => (some c, h.take i)

/-- std `String::truncate`: no-op when `new_len > len`, otherwise asserts the
char boundary (`none` = panic) and cuts. -/
def stdTruncate (h : List Nat) (new_len : Nat) : Option (List Nat) :=
  if new_len ≤ h.length then
    if isCharBoundary h new_len then some (h.take new_len) else none
  else some h

/-! ## InlinableString (src/lib.rs) -/

/-- `InlinableString` from src/lib.rs: `Heap(String)` or `Inline(InlineString)`. -/
inductive InlinableString where
  | Heap (s : List Nat)
  | Inline (s : InlineString)
  deriving DecidableEq, Repr

namespace InlinableString

/-- The string content, as exposed by `as_ref` / `Deref` (variant dispatch). -/
def content : InlinableString → List Nat
  | Heap h => h
  | Inline s => s.content

/-- `InlinableString::len` (variant dispatch). -/
def len : InlinableString → Nat
  | Heap h => h.length
  | Inline s => s.length

/-- True exactly on the `Heap` variant. -/
def isHeap : InlinableString → Bool
  | Heap _ => true
  | Inline _ => false

/-- True exactly on the `Inline` variant. -/
def isInline : InlinableString → Bool
  | Heap _ => false
  | Inline _ => true

/-- Invariant of an `InlinableString`: the heap arm holds valid UTF-8 and the
inline arm satisfies `InlineString`'s sanity conditions. -/
def ISane : InlinableString → Prop
  | Heap h => validUtf8 h = true
  | Inline s => s.Sane

instance (t : InlinableString) : Decidable (ISane t) := by
  cases t <;> simp only [ISane] <;> infer_instance

/-- `From<&str> for InlinableString`: inline iff the length fits the capacity
(the inner `InlineString::from` assert cannot fire on that branch). -/
def from_str (t : List Nat) : InlinableString :=
  if t.length ≤ INLINE_STRING_CAPACITY then Inline (InlineString.fromStrRaw t) else Heap t

/-- `InlinableString::push_str`: Heap delegates; Inline tries the buffer and on
a capacity error promotes to `Heap(String::from(self) + string)`. -/
def push_str : InlinableString → List Nat → InlinableString
  | Heap h, t => Heap (stdPushStr h t)
  | Inline s, t =>
    match s.push_str t with
    | (s1, none) => Inline s1
    | (_, some _) => Heap (s.content ++ t)

/-- `InlinableString::push`: Heap delegates; Inline tries the buffer and on a
capacity error promotes, pushing the character onto the copied content. -/
def push : InlinableString → Nat → InlinableString
  | Heap h, c => Heap (stdPush h c)
  | Inline s, c =>
    match s.push c with
    | (s1, none) => Inline s1
    | (_, some _) => Heap (s.content ++ utf8Encode c)

/-- `InlinableString::insert`: Heap delegates to `String::insert`; Inline tries
the buffer and on a capacity error promotes via `&s[..idx]`, `push(ch)`,
`&s[idx..]` (the slices panic off a char boundary; `none` = panic). -/
def insert : InlinableString → Nat → Nat → Option InlinableString
  | Heap h, idx, c => (stdInsert h idx c).map Heap
  | Inline s, idx, c =>
    match s.insert idx c with
    | none => none
    | some (s1, none) => some (Inline s1)
    | some (_, some _) =>
      if isCharBoundary s.content idx then
        some (Heap (s.content.take idx ++ utf8Encode c ++ s.content.drop idx))
      else none

/-- `InlinableString::remove` (variant dispatch, no promotion). -/
def remove : InlinableString → Nat → Option (Nat × InlinableString)
  | Heap h, idx => (stdRemove h idx).map (fun r => (r.1, Heap r.2))
  | Inline s, idx => (s.remove idx).map (fun r => (r.1, Inline r.2))

/-- `InlinableString::pop` (variant dispatch, no promotion). -/
def pop : InlinableString → Option Nat × InlinableString
  | Heap h => ((stdPop h).1, Heap (stdPop h).2)
  | Inline s => ((s.pop).1, Inline (s.pop).2)

/-- `InlinableString::truncate` (variant dispatch, no promotion). -/
def truncate : InlinableString → Nat → Option InlinableString
  | Heap h, n => (stdTruncate h n).map Heap
  | Inline s, n => (s.truncate n).map Inline

/-- Modelled from the spec: `clear` comes from the `StringExt` trait defaults in
src/string_ext.rs, which is not under src/.  Spec 4.1 gives
`clear(): length = 0` and spec 4.2 has every mutating operation dispatch on the
active variant without changing it, so: Heap clears its heap string, Inline
clears the buffer. -/
def clear : InlinableString → InlinableString
  | Heap _ => Heap []
  | Inline s => Inline s.clear

/-- `InlinableString::reserve`: Heap delegates (content unchanged); Inline
promotes exactly when `len + additional` exceeds the inline capacity. -/
def reserve : InlinableString → Nat → InlinableString
  | Heap h, _ => Heap h
  | Inline s, additional =>
    if s.length + additional ≤ INLINE_STRING_CAPACITY then Inline s else Heap s.content

/-- `InlinableString::reserve_exact`: same shape as `reserve`. -/
def reserve_exact : InlinableString → Nat → InlinableString
  | Heap h, _ => Heap h
  | Inline s, additional =>
    if s.length + additional ≤ INLINE_STRING_CAPACITY then Inline s else Heap s.content

/-- `InlinableString::shrink_to_fit`: when `len <= INLINE_STRING_CAPACITY`,
demote a Heap to a fresh `InlineString::from` of its content (and return
unchanged when already Inline); otherwise delegate to the heap string's shrink
(content unchanged) — the Inline arm of that branch is the source's
`panic!` (`none`). -/
def shrink_to_fit (t : InlinableString) : Option InlinableString :=
  if t.len ≤ INLINE_STRING_CAPACITY then
    match t with
    | Heap h => (InlineString.from_str h).map Inline
    | Inline s => some (Inline s)
  else
    match t with
    | Heap h => some (Heap h)
    | Inline _ => none

end InlinableString

/-! ## Constructors and the serde boundary (src/lib.rs, src/serde_impl.rs) -/

/-- std `String::from_utf8` semantics: validate, keep the bytes. -/
def stdFromUtf8 (v : List Nat) : Option (List Nat) :=
  if validUtf8 v then some v else none

/-- std `char::decode_utf16` semantics, strict: `none` on any unpaired
surrogate. -/
def utf16Decode : List Nat → Option (List Nat)
  | [] => some []
  | u :: rest =>
    if u < 0xD800 ∨ 0xE000 ≤ u then (utf16Decode rest).map (fun cs => u :: cs)
    else if u < 0xDC00 then
      match rest with
      | u2 :: rest2 =>
        if 0xDC00 ≤ u2 ∧ u2 < 0xE000 then
          (utf16Decode rest2).map
            (fun cs => (0x10000 + (u - 0xD800) * 0x400 + (u2 - 0xDC00)) :: cs)
        else none
      | [] => none
    else none

/-- std `String::from_utf16_lossy` semantics: unpaired surrogates decode to
U+FFFD, consuming one unit. -/
def utf16LossyDecode : List Nat → List Nat
  | [] => []
  | u :: rest =>
    if u < 0xD800 ∨ 0xE000 ≤ u then u :: utf16LossyDecode rest
    else if u < 0xDC00 then
      match rest with
      | u2 :: rest2 =>
        if 0xDC00 ≤ u2 ∧ u2 < 0xE000 then
          (0x10000 + (u - 0xD800) * 0x400 + (u2 - 0xDC00)) :: utf16LossyDecode rest2
        else 0xFFFD :: utf16LossyDecode (u2 :: rest2)
      | [] => [0xFFFD]
    else 0xFFFD :: utf16LossyDecode rest

namespace InlinableString

/-- `InlinableString::from_utf8`: `String::from_utf8(vec).map(InlinableString::Heap)`. -/
def from_utf8 (v : List Nat) : Option InlinableString :=
  (stdFromUtf8 v).map Heap

/-- `InlinableString::from_utf16`: `String::from_utf16(v).map(InlinableString::Heap)`. -/
def from_utf16 (v : List Nat) : Option InlinableString :=
  (utf16Decode v).map (fun cs => Heap ((cs.map utf8Encode).flatten))

/-- `InlinableString::from_utf16_lossy`: always `Heap`. -/
def from_utf16_lossy (v : List Nat) : InlinableString :=
  Heap (((utf16LossyDecode v).map utf8Encode).flatten)

/-- `InlinableString::from_raw_parts`: wraps `String::from_raw_parts` in `Heap`;
modelled by the byte content of the raw buffer (the caller guarantees it is
valid UTF-8). -/
def from_raw_parts (buf : List Nat) : InlinableString :=
  Heap buf

/-- `InlinableString::from_utf8_unchecked`: wraps the bytes in `Heap` with no
validation. -/
def from_utf8_unchecked (bytes : List Nat) : InlinableString :=
  Heap bytes

end InlinableString

/-! ## Helper lemmas about `InlineString` content -/

theorem InlineString.content_length {s : InlineString} (hs : s.Sane) :
    s.content.length = s.length := by
  obtain ⟨h1, h2, _⟩ := hs
  simp [InlineString.content, List.length_take]
  omega

theorem InlineString.content_write {s : InlineString} (hs : s.Sane) (x : List Nat)
    (hcap : s.length + x.length ≤ INLINE_STRING_CAPACITY) :
    InlineString.content
      { length := s.length + x.length,
        bytes := s.bytes.take s.length ++ x ++ s.bytes.drop (s.length + x.length) } =
      s.content ++ x := by
  obtain ⟨h1, h2, _⟩ := hs
  simp only [InlineString.content]
  rw [List.take_left' (by simp [List.length_take]; omega)]

theorem InlineString.content_insert {s : InlineString} (hs : s.Sane) (idx c : Nat)
    (hidx : idx ≤ s.length) (hcap : s.length + lenUtf8 c ≤ INLINE_STRING_CAPACITY) :
    InlineString.content
      { length := s.length + lenUtf8 c,
        bytes := s.bytes.take idx ++ utf8Encode c ++ (s.bytes.drop idx).take (s.length - idx) ++
          s.bytes.drop (s.length + lenUtf8 c) } =
      s.content.take idx ++ utf8Encode c ++ s.content.drop idx := by
  obtain ⟨h1, h2, _⟩ := hs
  simp only [InlineString.content]
  rw [show s.bytes.take idx ++ utf8Encode c ++ (s.bytes.drop idx).take (s.length - idx) ++
      s.bytes.drop (s.length + lenUtf8 c) =
      (s.bytes.take idx ++ utf8Encode c ++ (s.bytes.drop idx).take (s.length - idx)) ++
      s.bytes.drop (s.length + lenUtf8 c) by simp [List.append_assoc]]
  rw [List.take_left' (by
    simp [List.length_take, List.length_drop, utf8Encode_length]
    omega)]
  rw [List.take_take]
  rw [Nat.min_eq_left hidx]
  rw [List.drop_take]

/-- `Serialize for InlinableString` (src/serde_impl.rs): the emitted value is
`serializer.serialize_str(self)` — exactly the string content, with no variant
information. -/
def serialize (t : InlinableString) : List Nat :=
  t.content

/-- `Deserialize for InlinableString` (src/serde_impl.rs): the visitor maps a
string token `v` to `v.into()`, i.e. `From<&str>`. -/
def deserialize (t : List Nat) : InlinableString :=
  InlinableString.from_str t

/-! ## Claim theorems -/

/-- The two-byte character U+00E9 stored in an `InlineString` (bytes C3 A9):
byte offset 1 falls strictly inside its encoding. -/
def exEacute : InlineString := { length := 2, bytes := [0xC3, 0xA9] ++ List.replicate 30 0 }

/-- The state `InlineString::insert(1, 'a')` actually produces on `exEacute`. -/
def insertedEacute : InlineString :=
  { length := 3, bytes := [0xC3, 97, 0xA9] ++ List.replicate 29 0 }

/-- C1: the claim fails on the code. `InlineString::insert` checks only
`idx <= length` and capacity, never the character boundary, so inserting 'a' at
offset 1 inside the 2-byte character U+00E9 returns `Ok` with the buffer
mutated to C3 61 A9 — `bytes[0..length]` is no longer valid UTF-8, violating
invariant I2 after the call returns, and the operation did not fail before
mutating. -/
theorem c1_insert_breaks_invariant :
    exEacute.Sane ∧
    InlineString.insert exEacute 1 97 = some (insertedEacute, none) ∧
    validUtf8 insertedEacute.content = false ∧
    insertedEacute.bytes ≠ exEacute.bytes := by
  refine ⟨by decide, by decide, by decide, by decide⟩

/-- C4: the claim fails on the code. Offset 1 is not a character boundary of
`exEacute` (it is strictly inside U+00E9's encoding), yet
`InlineString::insert(1, 'a')` is not rejected: it returns successfully
(`some (_, none)`: no panic, no space error) and the bytes and length are
changed. -/
theorem c4_insert_not_rejected :
    exEacute.Sane ∧
    isCharBoundary exEacute.content 1 = false ∧
    InlineString.insert exEacute 1 97 = some (insertedEacute, none) ∧
    insertedEacute ≠ exEacute := by
  refine ⟨by decide, by decide, by decide, by decide⟩

/-- The two-character ASCII string "he" as an `InlineString`. -/
def exHe : InlineString := InlineString.fromStrRaw [104, 101]

/-- C3: the claim fails on the code. `new_len = length` is a character boundary
and `new_len ≤ length`, so per the claim (and the method's own documentation)
`truncate` must succeed — but `InlineString::truncate` looks `new_len` up among
`char_indices`, which yields only character START offsets and never the offset
`length`, so `truncate(2)` on "he" panics; the Heap variant (std
`String::truncate`) on identical content is a no-op, so the two variants also
diverge observably.  Likewise `truncate(0)` on an empty `InlineString` panics. -/
theorem c3_truncate_at_length_panics :
    exHe.Sane ∧ exHe.length = 2 ∧ isCharBoundary exHe.content 2 = true ∧
    InlineString.truncate exHe 2 = none ∧
    stdTruncate [104, 101] 2 = some [104, 101] ∧
    InlinableString.truncate (InlinableString.Inline exHe) 2 = none ∧
    InlinableString.truncate (InlinableString.Heap [104, 101]) 2 =
      some (InlinableString.Heap [104, 101]) ∧
    InlineString.truncate InlineString.new 0 = none := by
  refine ⟨by decide, by decide, by decide, by decide, by decide, by decide, by decide, by decide⟩

/-- C5: `InlineString::push_str` errors exactly when `length + len(s)` exceeds
the capacity; on error the receiver is returned untouched (atomic failure); on
success the content is the old content followed by `s` and the length grows by
`len(s)`. -/
theorem c5_push_str_capacity (s : InlineString) (t : List Nat) (hs : s.Sane) :
    ((s.push_str t).2.isSome ↔ INLINE_STRING_CAPACITY < s.length + t.length) ∧
    (INLINE_STRING_CAPACITY < s.length + t.length → s.push_str t = (s, some {})) ∧
    (s.length + t.length ≤ INLINE_STRING_CAPACITY →
      (s.push_str t).2 = none ∧
      (s.push_str t).1.content = s.content ++ t ∧
      (s.push_str t).1.length = s.length + t.length) := by
  unfold InlineString.push_str
  by_cases h : s.length + t.length > INLINE_STRING_CAPACITY
  · rw [if_pos h]
    exact ⟨by simpa using h, fun _ => rfl, fun h2 => absurd h (by omega)⟩
  · rw [if_neg h]
    exact ⟨by simpa using h, fun h2 => absurd h2 (by omega),
      fun h2 => ⟨rfl, InlineString.content_write hs t (by omega), rfl⟩⟩

theorem isCharBoundary_le {l : List Nat} {idx : Nat} (h : isCharBoundary l idx = true) :
    idx ≤ l.length := by
  unfold isCharBoundary at h
  split_ifs at h with h0
  · omega
  · cases hg : l.get? idx with
    | none =>
      rw [hg] at h
      simp at h
      omega
    | some b =>
      obtain ⟨hlt, -⟩ := List.get?_eq_some.mp hg
      omega

/-- C2: at the `InlinableString` level, `push_str`, `push` and (on a character
boundary) `insert` never surface a capacity error: they are total (insert
returns `some`), and the resulting content is exactly the old content with the
text appended, the character appended, or the character spliced in at `idx` —
on the Inline variant either by an in-place buffer write or, when the buffer
lacks space, by promotion to a Heap carrying the full expected content. -/
theorem c2_infallible_append (t : InlinableString) (ht : t.ISane) (x : List Nat) (c idx : Nat) :
    (t.push_str x).content = t.content ++ x ∧
    (t.push c).content = t.content ++ utf8Encode c ∧
    (isCharBoundary t.content idx = true →
      ∃ t2, t.insert idx c = some t2 ∧
        t2.content = t.content.take idx ++ utf8Encode c ++ t.content.drop idx) := by
  cases t with
  | Heap h =>
    refine ⟨rfl, rfl, fun hb => ?_⟩
    refine ⟨InlinableString.Heap (h.take idx ++ utf8Encode c ++ h.drop idx), ?_, rfl⟩
    simp only [InlinableString.insert, stdInsert, InlinableString.content] at hb ⊢
    rw [if_pos hb]
    rfl
  | Inline s =>
    have hs : s.Sane := ht
    have hlen : s.content.length = s.length := InlineString.content_length hs
    refine ⟨?_, ?_, ?_⟩
    · simp only [InlinableString.push_str, InlineString.push_str, InlinableString.content]
      by_cases hcap : s.length + x.length > INLINE_STRING_CAPACITY
      · rw [if_pos hcap]
      · rw [if_neg hcap]
        simp only [InlinableString.content]
        exact InlineString.content_write hs x (by omega)
    · simp only [InlinableString.push, InlineString.push, InlinableString.content]
      by_cases hcap : s.length + lenUtf8 c > INLINE_STRING_CAPACITY
      · rw [if_pos hcap]
      · rw [if_neg hcap]
        simp only [InlinableString.content]
        have := InlineString.content_write hs (utf8Encode c)
          (by rw [utf8Encode_length]; omega)
        rw [utf8Encode_length] at this
        exact this
    · intro hb
      have hidx : idx ≤ s.length := by
        have := isCharBoundary_le hb
        simp only [InlinableString.content] at this
        omega
      simp only [InlinableString.insert, InlineString.insert, InlinableString.content] at hb ⊢
      rw [if_pos hidx]
      by_cases hcap : s.length + lenUtf8 c > INLINE_STRING_CAPACITY
      · rw [if_pos hcap]
        simp only [hb, if_pos]
        exact ⟨InlinableString.Heap (s.content.take idx ++ utf8Encode c ++ s.content.drop idx),
          rfl, rfl⟩
      · rw [if_neg hcap]
        simp only []
        refine ⟨_, rfl, ?_⟩
        simp only [InlinableString.content]
        exact InlineString.content_insert hs idx c hidx (by omega)

/-- Witness for C2 at a concrete input: "he" as Inline, appending "!" and 'a',
inserting 'a' at offset 1 (a character boundary). -/
theorem c2_infallible_append_witness :
    (InlinableString.Inline exHe).ISane ∧
    isCharBoundary (InlinableString.Inline exHe).content 1 = true ∧
    (((InlinableString.Inline exHe).push_str [33]).content =
        (InlinableString.Inline exHe).content ++ [33] ∧
    ((InlinableString.Inline exHe).push 97).content =
        (InlinableString.Inline exHe).content ++ utf8Encode 97 ∧
    (isCharBoundary (InlinableString.Inline exHe).content 1 = true →
      ∃ t2, (InlinableString.Inline exHe).insert 1 97 = some t2 ∧
        t2.content = (InlinableString.Inline exHe).content.take 1 ++ utf8Encode 97 ++
          (InlinableString.Inline exHe).content.drop 1)) :=
  ⟨by decide, by decide, c2_infallible_append (InlinableString.Inline exHe) (by decide) [33] 97 1⟩

/-- Witness for C5 at a concrete input: "he" with one more byte fits. -/
theorem c5_push_str_capacity_witness :
    exHe.Sane ∧
    (((exHe.push_str [33]).2.isSome ↔ INLINE_STRING_CAPACITY < exHe.length + [33].length) ∧
    (INLINE_STRING_CAPACITY < exHe.length + [33].length → exHe.push_str [33] = (exHe, some {})) ∧
    (exHe.length + [33].length ≤ INLINE_STRING_CAPACITY →
      (exHe.push_str [33]).2 = none ∧
      (exHe.push_str [33]).1.content = exHe.content ++ [33] ∧
      (exHe.push_str [33]).1.length = exHe.length + [33].length)) :=
  ⟨by decide, c5_push_str_capacity exHe [33] (by decide)⟩

/-- `pop` on a buffer whose content is a valid string followed by one encoded
character: returns that character and cuts the length back. -/
theorem pop_of_content_append {s1 : InlineString} {p : List Nat} {c : Nat}
    (hcontent : s1.content = p ++ utf8Encode c) (hp : validUtf8 p = true) (hc : IsUSV c) :
    s1.pop = (some c, { s1 with length := p.length }) := by
  unfold InlineString.pop
  rw [hcontent, charIndices_append_encode hp hc]

/-- After a successful `InlineString::push`, `pop` returns the pushed character
and restores the previous length and content. -/
theorem inline_push_pop {s : InlineString} {c : Nat} (hs : s.Sane) (hc : IsUSV c)
    (hcap : s.length + lenUtf8 c ≤ INLINE_STRING_CAPACITY) :
    (s.push c).2 = none ∧ ((s.push c).1).pop.1 = some c ∧
    ((s.push c).1).pop.2.length = s.length ∧ ((s.push c).1).pop.2.content = s.content := by
  obtain ⟨h1, h2, hp⟩ := hs
  unfold InlineString.push
  rw [if_neg (by omega)]
  have hcontent : (InlineString.mk (s.length + lenUtf8 c)
      (s.bytes.take s.length ++ utf8Encode c ++
        s.bytes.drop (s.length + lenUtf8 c))).content = s.content ++ utf8Encode c := by
    have := InlineString.content_write ⟨h1, h2, hp⟩ (utf8Encode c)
      (by rw [utf8Encode_length]; omega)
    rw [utf8Encode_length] at this
    exact this
  have hclen : s.content.length = s.length := InlineString.content_length ⟨h1, h2, hp⟩
  have hpop := pop_of_content_append hcontent hp hc
  refine ⟨rfl, ?_, ?_, ?_⟩
  · rw [hpop]
  · rw [hpop, hclen]
  · rw [hpop, hclen]
    simp only [InlineString.content]
    rw [List.append_assoc]
    rw [List.take_left' (by rw [List.length_take]; omega)]

/-- Pushing then popping on the heap string returns the pushed character and
the previous content. -/
theorem heap_push_pop {h : List Nat} {c : Nat} (hp : validUtf8 h = true) (hc : IsUSV c) :
    (stdPop (stdPush h c)).1 = some c ∧ (stdPop (stdPush h c)).2 = h := by
  have hlast := charIndices_append_encode hp hc
  unfold stdPop stdPush
  rw [hlast]
  exact ⟨rfl, List.take_left' rfl⟩

/-- A full 32-byte inline buffer of 'a' characters. -/
def exFull : InlineString := { length := 32, bytes := List.replicate 32 97 }

/-- C6 counterexample: on a bare `InlineString` that is full, `push('b')` fails
with the capacity error (leaving the receiver unchanged), and the following
`pop` returns the pre-existing last character 'a' — not the pushed 'b' — and
drops the length to 31 instead of restoring 32.  So the round-trip claim is
false for `InlineString` as stated. -/
theorem c6_push_pop_counterexample :
    exFull.Sane ∧
    InlineString.push exFull 98 = (exFull, some {}) ∧
    (InlineString.pop (InlineString.push exFull 98).1).1 = some 97 ∧
    (InlineString.pop (InlineString.push exFull 98).1).1 ≠ some 98 ∧
    (InlineString.pop (InlineString.push exFull 98).1).2.length = 31 := by
  refine ⟨by decide, by decide, by decide, by decide, by decide⟩

/-- C6 amended: `push(c)` then `pop()` returns `Some(c)` and restores the prior
length (and content), for both `InlinableString` variants and across the
promotion boundary; for the bare `InlineString` it holds whenever the push
succeeds (a full buffer rejects the push with a capacity error and stays
unchanged, so the pop then removes the pre-existing last character). -/
theorem c6_amended_push_pop (c : Nat) (hc : IsUSV c) :
    (∀ (s s1 : InlineString), s.Sane → s.push c = (s1, none) →
      s1.pop.1 = some c ∧ s1.pop.2.length = s.length ∧ s1.pop.2.content = s.content) ∧
    (∀ t : InlinableString, t.ISane →
      (t.push c).pop.1 = some c ∧ (t.push c).pop.2.len = t.len ∧
      (t.push c).pop.2.content = t.content) := by
  constructor
  · intro s s1 hs hpush
    by_cases hcap : s.length + lenUtf8 c ≤ INLINE_STRING_CAPACITY
    · obtain ⟨-, hpop1, hpop2, hpop3⟩ := inline_push_pop hs hc hcap
      have he : (s.push c).1 = s1 := by rw [hpush]
      rw [he] at hpop1 hpop2 hpop3
      exact ⟨hpop1, hpop2, hpop3⟩
    · exfalso
      unfold InlineString.push at hpush
      rw [if_pos (by omega)] at hpush
      simp at hpush
  · intro t ht
    cases t with
    | Heap h =>
      have hpp := heap_push_pop (h := h) ht hc
      refine ⟨?_, ?_, ?_⟩
      · simp only [InlinableString.push, InlinableString.pop]
        exact hpp.1
      · simp only [InlinableString.push, InlinableString.pop, InlinableString.len]
        rw [hpp.2]
      · simp only [InlinableString.push, InlinableString.pop, InlinableString.content]
        exact hpp.2
    | Inline s =>
      have hs : s.Sane := ht
      have hclen : s.content.length = s.length := InlineString.content_length hs
      by_cases hcap : s.length + lenUtf8 c ≤ INLINE_STRING_CAPACITY
      · have hpush : s.push c = (InlineString.mk (s.length + lenUtf8 c)
            (s.bytes.take s.length ++ utf8Encode c ++
              s.bytes.drop (s.length + lenUtf8 c)), none) := by
          unfold InlineString.push
          rw [if_neg (by omega)]
        obtain ⟨-, hpop1, hpop2, hpop3⟩ := inline_push_pop hs hc hcap
        rw [hpush] at hpop1 hpop2 hpop3
        have hred : (InlinableString.Inline s).push c =
            InlinableString.Inline (InlineString.mk (s.length + lenUtf8 c)
              (s.bytes.take s.length ++ utf8Encode c ++
                s.bytes.drop (s.length + lenUtf8 c))) := by
          simp only [InlinableString.push, hpush]
        rw [hred]
        exact ⟨hpop1, hpop2, hpop3⟩
      · have hpush : s.push c = (s, some {}) := by
          unfold InlineString.push
          rw [if_pos (by omega)]
        have hred : (InlinableString.Inline s).push c =
            InlinableString.Heap (stdPush s.content c) := by
          simp only [InlinableString.push, hpush]
          rfl
        rw [hred]
        have hpp := heap_push_pop (h := s.content) hs.2.2 hc
        refine ⟨?_, ?_, ?_⟩
        · simp only [InlinableString.pop]
          exact hpp.1
        · simp only [InlinableString.pop, InlinableString.len]
          rw [hpp.2, hclen]
        · simp only [InlinableString.pop, InlinableString.content]
          exact hpp.2

/-- Witness for C6-amended at concrete inputs: pushing 'a' onto "he" and back,
and pushing 'b' onto a full Inline `InlinableString` (which promotes) and back. -/
theorem c6_amended_push_pop_witness :
    (IsUSV 97 ∧ exHe.Sane ∧ exHe.push 97 = ((exHe.push 97).1, none) ∧
      ((exHe.push 97).1.pop.1 = some 97 ∧ (exHe.push 97).1.pop.2.length = exHe.length ∧
        (exHe.push 97).1.pop.2.content = exHe.content)) ∧
    (IsUSV 98 ∧ (InlinableString.Inline exFull).ISane ∧
      (((InlinableString.Inline exFull).push 98).pop.1 = some 98 ∧
        ((InlinableString.Inline exFull).push 98).pop.2.len =
          (InlinableString.Inline exFull).len ∧
        ((InlinableString.Inline exFull).push 98).pop.2.content =
          (InlinableString.Inline exFull).content)) :=
  ⟨⟨by decide, by decide, by decide,
    (c6_amended_push_pop 97 (by decide)).1 exHe ((exHe.push 97).1) (by decide) (by decide)⟩,
   ⟨by decide, by decide,
    (c6_amended_push_pop 98 (by decide)).2 (InlinableString.Inline exFull) (by decide)⟩⟩

/-- C7: `shrink_to_fit` demotes a Heap to Inline exactly when the length fits
the inline capacity, preserving the content; it returns an Inline unchanged;
and it is idempotent (a second call leaves the same variant and content). -/
theorem c7_shrink_to_fit (t : InlinableString) (ht : t.ISane) :
    ∃ t2, t.shrink_to_fit = some t2 ∧
      (t.isHeap = true → ((t2.isInline = true) ↔ t.len ≤ INLINE_STRING_CAPACITY) ∧
        t2.content = t.content) ∧
      (t.isInline = true → t2 = t) ∧
      t2.shrink_to_fit = some t2 := by
  cases t with
  | Inline s =>
    have hs : s.Sane := ht
    have hfit : (InlinableString.Inline s).len ≤ INLINE_STRING_CAPACITY := hs.1
    have hstep : (InlinableString.Inline s).shrink_to_fit = some (InlinableString.Inline s) := by
      unfold InlinableString.shrink_to_fit
      rw [if_pos hfit]
    refine ⟨InlinableString.Inline s, hstep, ?_, fun _ => rfl, hstep⟩
    intro hh
    simp [InlinableString.isHeap] at hh
  | Heap h =>
    by_cases hlen : h.length ≤ INLINE_STRING_CAPACITY
    · have hcont : (InlinableString.Inline (InlineString.fromStrRaw h)).content = h := by
        simp only [InlinableString.content, InlineString.content, InlineString.fromStrRaw]
        exact List.take_left' rfl
      refine ⟨InlinableString.Inline (InlineString.fromStrRaw h), ?_, ?_, ?_, ?_⟩
      · unfold InlinableString.shrink_to_fit
        rw [if_pos (show (InlinableString.Heap h).len ≤ INLINE_STRING_CAPACITY from hlen)]
        simp [InlineString.from_str, hlen]
      · exact fun _ => ⟨by simp [InlinableString.isInline, InlinableString.len, hlen], hcont⟩
      · intro hinl
        simp [InlinableString.isInline] at hinl
      · unfold InlinableString.shrink_to_fit
        rw [if_pos (show (InlinableString.Inline (InlineString.fromStrRaw h)).len ≤
          INLINE_STRING_CAPACITY by
            simp [InlinableString.len, InlineString.fromStrRaw]
            omega)]
    · refine ⟨InlinableString.Heap h, ?_, ?_, ?_, ?_⟩
      · unfold InlinableString.shrink_to_fit
        rw [if_neg (show ¬ (InlinableString.Heap h).len ≤ INLINE_STRING_CAPACITY from hlen)]
      · exact fun _ => ⟨by simp [InlinableString.isInline, InlinableString.len, hlen], rfl⟩
      · intro hinl
        simp [InlinableString.isInline] at hinl
      · unfold InlinableString.shrink_to_fit
        rw [if_neg (show ¬ (InlinableString.Heap h).len ≤ INLINE_STRING_CAPACITY from hlen)]

/-- Witness for C7 at a concrete input: a Heap holding "hi" demotes. -/
theorem c7_shrink_to_fit_witness :
    (InlinableString.Heap [104, 105]).ISane ∧
    ∃ t2, (InlinableString.Heap [104, 105]).shrink_to_fit = some t2 ∧
      ((InlinableString.Heap [104, 105]).isHeap = true →
        ((t2.isInline = true) ↔ (InlinableString.Heap [104, 105]).len ≤ INLINE_STRING_CAPACITY) ∧
        t2.content = (InlinableString.Heap [104, 105]).content) ∧
      ((InlinableString.Heap [104, 105]).isInline = true → t2 = InlinableString.Heap [104, 105]) ∧
      t2.shrink_to_fit = some t2 :=
  ⟨by decide, c7_shrink_to_fit (InlinableString.Heap [104, 105]) (by decide)⟩

/-- C8: every operation other than `shrink_to_fit` maps the Heap variant to the
Heap variant — Heap never auto-demotes, even when the resulting length is at or
below the inline capacity. -/
theorem c8_heap_never_demotes (h x : List Nat) (c idx n add : Nat) :
    ((InlinableString.Heap h).push_str x).isHeap = true ∧
    ((InlinableString.Heap h).push c).isHeap = true ∧
    (∀ r, (InlinableString.Heap h).insert idx c = some r → r.isHeap = true) ∧
    (∀ r, (InlinableString.Heap h).remove idx = some r → r.2.isHeap = true) ∧
    ((InlinableString.Heap h).pop.2).isHeap = true ∧
    (∀ r, (InlinableString.Heap h).truncate n = some r → r.isHeap = true) ∧
    ((InlinableString.Heap h).clear).isHeap = true ∧
    ((InlinableString.Heap h).reserve add).isHeap = true ∧
    ((InlinableString.Heap h).reserve_exact add).isHeap = true := by
  refine ⟨rfl, rfl, ?_, ?_, rfl, ?_, rfl, rfl, rfl⟩
  · intro r hr
    simp only [InlinableString.insert] at hr
    obtain ⟨y, -, hy⟩ := Option.map_eq_some'.mp hr
    rw [← hy]
    rfl
  · intro r hr
    simp only [InlinableString.remove] at hr
    obtain ⟨y, -, hy⟩ := Option.map_eq_some'.mp hr
    rw [← hy]
    rfl
  · intro r hr
    simp only [InlinableString.truncate] at hr
    obtain ⟨y, -, hy⟩ := Option.map_eq_some'.mp hr
    rw [← hy]
    rfl

/-- Witness for C8 at concrete inputs: a Heap "h" stays Heap under every
operation, including ones that leave the length at or below the capacity. -/
theorem c8_heap_never_demotes_witness :
    ((InlinableString.Heap [104]).push_str [33]).isHeap = true ∧
    ((InlinableString.Heap [104]).push 97).isHeap = true ∧
    (InlinableString.Heap [104, 97]).isHeap = true ∧
    (104, InlinableString.Heap []).2.isHeap = true ∧
    ((InlinableString.Heap [104]).pop.2).isHeap = true ∧
    (InlinableString.Heap [104]).isHeap = true ∧
    ((InlinableString.Heap [104]).clear).isHeap = true ∧
    ((InlinableString.Heap [104]).reserve 5).isHeap = true ∧
    ((InlinableString.Heap [104]).reserve_exact 5).isHeap = true :=
  ⟨(c8_heap_never_demotes [104] [33] 97 1 1 5).1,
   (c8_heap_never_demotes [104] [33] 97 1 1 5).2.1,
   (c8_heap_never_demotes [104] [33] 97 1 1 5).2.2.1 (InlinableString.Heap [104, 97]) (by decide),
   (c8_heap_never_demotes [104] [33] 97 0 1 5).2.2.2.1 (104, InlinableString.Heap []) (by decide),
   (c8_heap_never_demotes [104] [33] 97 1 1 5).2.2.2.2.1,
   (c8_heap_never_demotes [104] [33] 97 1 1 5).2.2.2.2.2.1 (InlinableString.Heap [104]) (by decide),
   (c8_heap_never_demotes [104] [33] 97 1 1 5).2.2.2.2.2.2.1,
   (c8_heap_never_demotes [104] [33] 97 1 1 5).2.2.2.2.2.2.2.1,
   (c8_heap_never_demotes [104] [33] 97 1 1 5).2.2.2.2.2.2.2.2⟩

/-- `deserialize` reproduces exactly the decoded text as content, whichever
variant it picks. -/
theorem deserialize_content (x : List Nat) : (deserialize x).content = x := by
  unfold deserialize InlinableString.from_str
  by_cases hx : x.length ≤ INLINE_STRING_CAPACITY
  · rw [if_pos hx]
    simp only [InlinableString.content, InlineString.content, InlineString.fromStrRaw]
    exact List.take_left' rfl
  · rw [if_neg hx]
    rfl

/-- C9: serialization emits exactly the content (no variant information);
deserialization picks Inline iff the byte length fits the inline capacity and
reproduces the text; hence serialize-then-deserialize yields an instance equal
(by content, which is how `PartialEq` compares) to the original. -/
theorem c9_serde_roundtrip (t : InlinableString) (x : List Nat) :
    serialize t = t.content ∧
    ((deserialize x).isInline = true ↔ x.length ≤ INLINE_STRING_CAPACITY) ∧
    (deserialize x).content = x ∧
    (deserialize (serialize t)).content = t.content := by
  refine ⟨rfl, ?_, deserialize_content x, deserialize_content t.content⟩
  unfold deserialize InlinableString.from_str
  by_cases hx : x.length ≤ INLINE_STRING_CAPACITY
  · rw [if_pos hx]
    simpa [InlinableString.isInline] using hx
  · rw [if_neg hx]
    simpa [InlinableString.isInline] using hx

/-- C10: `from_utf8`, `from_utf16`, `from_utf16_lossy`, `from_raw_parts` and
`from_utf8_unchecked` always construct the Heap variant, even when the content
would fit inline — unlike `From<&str>`, which picks Inline whenever the length
fits the capacity. -/
theorem c10_constructors_always_heap (v w raw x : List Nat) :
    (∀ r, InlinableString.from_utf8 v = some r → r.isHeap = true) ∧
    (∀ r, InlinableString.from_utf16 w = some r → r.isHeap = true) ∧
    (InlinableString.from_utf16_lossy w).isHeap = true ∧
    (InlinableString.from_raw_parts raw).isHeap = true ∧
    (InlinableString.from_utf8_unchecked raw).isHeap = true ∧
    (x.length ≤ INLINE_STRING_CAPACITY → (InlinableString.from_str x).isInline = true) := by
  refine ⟨?_, ?_, rfl, rfl, rfl, ?_⟩
  · intro r hr
    simp only [InlinableString.from_utf8] at hr
    obtain ⟨y, -, hy⟩ := Option.map_eq_some'.mp hr
    rw [← hy]
    rfl
  · intro r hr
    simp only [InlinableString.from_utf16] at hr
    obtain ⟨y, -, hy⟩ := Option.map_eq_some'.mp hr
    rw [← hy]
    rfl
  · intro hx
    unfold InlinableString.from_str
    rw [if_pos hx]
    rfl

/-- Witness for C10 at concrete inputs: "hi" (2 bytes, would fit inline) still
lands on the Heap via every byte/UTF-16 constructor, while `From<&str>` picks
Inline for it. -/
theorem c10_constructors_always_heap_witness :
    (InlinableString.Heap [104, 105]).isHeap = true ∧
    (InlinableString.Heap [97]).isHeap = true ∧
    (InlinableString.from_utf16_lossy [97]).isHeap = true ∧
    (InlinableString.from_raw_parts [104, 105]).isHeap = true ∧
    (InlinableString.from_utf8_unchecked [104, 105]).isHeap = true ∧
    (InlinableString.from_str [104, 105]).isInline = true :=
  ⟨(c10_constructors_always_heap [104, 105] [97] [104, 105] [104, 105]).1
      (InlinableString.Heap [104, 105]) (by decide),
   (c10_constructors_always_heap [104, 105] [97] [104, 105] [104, 105]).2.1
      (InlinableString.Heap [97]) (by decide),
   (c10_constructors_always_heap [104, 105] [97] [104, 105] [104, 105]).2.2.1,
   (c10_constructors_always_heap [104, 105] [97] [104, 105] [104, 105]).2.2.2.1,
   (c10_constructors_always_heap [104, 105] [97] [104, 105] [104, 105]).2.2.2.2.1,
   (c10_constructors_always_heap [104, 105] [97] [104, 105] [104, 105]).2.2.2.2.2 (by decide)⟩

end Inlinable
